import Mathlib

/-!
Shallow embedding of `rupy/fields.py`: the declarative binary-layout
subsystem (codecs, `FieldSet`/`FieldMap` schema compilation, the DSL
tokenizer/parser, and the bound-view runtime).

Byte buffers (`bytearray`/`memoryview` contents) are modelled as `List Nat`;
a `memoryview(buf)[off:off+len]` window is `readBytes`, and writing a window
back in place is `writeBytes`.  Python's uniform `ValueError`/`KeyError`/
`struct.error` raise sites are distinguished by the `Err` constructors, one
per raise site of the source.
-/

namespace Rupy

/-- `memoryview(buf)[off : off+len]` — Python slicing clamps out-of-range
bounds, hence `drop`/`take`. -/
def readBytes (b : List Nat) (off len : Nat) : List Nat :=
  (b.drop off).take len

/-- Write `d` over `b[off : off + len d]`, in-place slice assignment. -/
def writeBytes (b : List Nat) (off : Nat) (d : List Nat) : List Nat :=
  b.take off ++ d ++ b.drop (off + d.length)

/-- One of the fixed-size scalar codecs built with `struct.Struct(fmt)`:
`fmt` is `<`/`>` (little/big endian) plus one of `BbHhLlQq`.  `nbytes` is
`struct.Struct(fmt).size`. -/
structure BasicField where
  nbytes : Nat
  signed : Bool
  bigEndian : Bool
deriving DecidableEq, Repr

/-- Little-endian base-256 digits of `v`, `k` bytes. -/
def leBytes : Nat → Nat → List Nat
  | _, 0 => []
  | v, k + 1 => v % 256 :: leBytes (v / 256) k

/-- Read a little-endian base-256 number. -/
def natFromLE : List Nat → Nat
  | [] => 0
  | d :: ds => d + 256 * natFromLE ds

/-- The range check `struct.pack` performs for integer formats. -/
def BasicField.inRange (bf : BasicField) (v : Int) : Bool :=
  if bf.signed then
    decide (-(2 ^ (8 * bf.nbytes - 1) : Int) ≤ v ∧ v < 2 ^ (8 * bf.nbytes - 1))
  else
    decide (0 ≤ v ∧ v < 2 ^ (8 * bf.nbytes))

/-- The `nbytes` bytes `struct.pack(fmt, v)` produces for an in-range `v`. -/
def BasicField.encode (bf : BasicField) (v : Int) : List Nat :=
  let le := leBytes (v % (2 : Int) ^ (8 * bf.nbytes)).toNat bf.nbytes
  if bf.bigEndian then le.reverse else le

/-- Errors.  The source raises plain `ValueError` (or `KeyError`,
`struct.error`, `TypeError`, `AttributeError`); each constructor names one
raise site so that the spec's error taxonomy can be checked. -/
inductive Err where
  /-- `struct.error`: value out of range in `pack_into`. -/
  | overflowErr : Err
  /-- `struct.error`: buffer too short for `pack_into`/`unpack`. -/
  | structErr : Err
  /-- `TypeError` from handing a codec a value of the wrong shape. -/
  | typeErr : Err
  /-- `AttributeError` (`.size` on a registry class used as a field). -/
  | attributeErr : Err
  /-- `Bytes.unpack`: "insufficient data in buffer for Bytes field". -/
  | bytesShortErr : Err
  /-- `Bytes.pack`: "data size mismatch for Bytes field". -/
  | bytesSizeMismatch : Err
  /-- memoryview slice assignment with a length-changing value. -/
  | memviewErr : Err
  /-- `FieldView.__init__`: "Not enough data in buffer". -/
  | boundsErr : Err
  /-- `FieldSet.__init__`: "can't create empty field set". -/
  | emptyFieldSet : Err
  /-- `FieldSet.pack`: "FieldSet.pack(): incorrect value count". -/
  | packArity : Err
  /-- `IndexError` from `self.fields[index]`. -/
  | indexErr : Err
  /-- tokenizer: "Syntax error in fieldspec: invalid token at %d". -/
  | invalidToken (pos : Nat) : Err
  /-- "Syntax error in fieldspec: mismatched brackets". -/
  | mismatchedBrackets : Err
  /-- "Syntax error in fieldspec: unmatched brackets". -/
  | unmatchedBrackets : Err
  /-- "Error in fieldspec: no field type specified". -/
  | noFieldType : Err
  /-- "Error in fieldspec: no field name specified". -/
  | noFieldName : Err
  /-- "Invalid field name". -/
  | invalidFieldName : Err
  /-- "Error in fieldspec: invalid field type". -/
  | invalidFieldType : Err
  /-- `KeyError` from `TYPES[name]`. -/
  | keyError (name : String) : Err
  /-- "Error in fieldspec: invalid array". -/
  | invalidArray : Err
  /-- "Error in fieldspec: no field to make array of". -/
  | noArrayField : Err
  /-- "Invalid array type". -/
  | invalidArrayType : Err
  /-- `FieldMap.__init__`: "Field named %r already defined". -/
  | duplicateName (name : String) : Err
deriving DecidableEq, Repr

/-- A field of a schema: a scalar codec (`BasicField` instance), a raw
`Bytes(n)` codec, or a nested `FieldSet`/`FieldMap` (which the source
represents by using a `FieldSet` object itself as the field's codec). -/
inductive Field where
  | basic (bf : BasicField) : Field
  | bytes (n : Nat) : Field
  | group (fields : List Field) : Field

/-- A decoded value, as handed around by `get`/`set`/`pack`:
a Python `int`, a `buf` returned by `Bytes.unpack` (an owned `bytearray`
copy of the bytes it was constructed from — `bytearray(mv)` copies), a
bound view returned by `FieldSet.unpack`, or a plain sequence of values. -/
inductive Value where
  | int (i : Int) : Value
  | bytesVal (data : List Nat) : Value
  | viewVal (fields : List Field) (w : List Nat) : Value
  | seq (vs : List Value) : Value

/-- `field.size`, summed recursively through nested field sets
(`size = sum(x.size for x in fields)`). -/
def Field.size : Field → Nat
  | .basic bf => bf.nbytes
  | .bytes n => n
  | .group fs => go fs
where go : List Field → Nat
  | [] => 0
  | f :: fs => f.size + go fs

/-- Total size of a `FieldSet`'s field list. -/
def sizeList (fields : List Field) : Nat := Field.size.go fields

/-- The offset table built by `FieldSet.__init__`:
`offsets = [0]; for f in fields[:-1]: offsets.append(offsets[-1] + f.size)`,
i.e. the running prefix sums, one entry per field. -/
def offsetsFrom (base : Nat) : List Field → List Nat
  | [] => []
  | f :: fs => base :: offsetsFrom (base + f.size) fs

def fsOffsets (fields : List Field) : List Nat := offsetsFrom 0 fields

/-- `struct.Struct(fmt).unpack(buf)[0]`: requires the window length to equal
the format size exactly, then decodes. -/
def BasicField.unpack (bf : BasicField) (w : List Nat) : Except Err Int :=
  if w.length = bf.nbytes then
    let u := natFromLE (if bf.bigEndian then w.reverse else w)
    if bf.signed && decide (2 ^ (8 * bf.nbytes - 1) ≤ u) then
      .ok ((u : Int) - (2 : Int) ^ (8 * bf.nbytes))
    else
      .ok (u : Int)
  else
    .error .structErr

/-- `len(value)` for the value shapes a Python sequence protocol sees
(`none` = `TypeError`).  A bound view's `__len__` is its field count. -/
def valueLen : Value → Option Nat
  | .int _ => none
  | .bytesVal d => some d.length
  | .viewVal fs _ => some fs.length
  | .seq vs => some vs.length

/-- Iterating a value into a list of element values: a `buf` yields its
bytes as ints, a tuple/list yields its members.  Iterating a bound view
(used only by `FieldView.__bytes__`) is not modelled. -/
def toValues : Value → Option (List Value)
  | .int _ => none
  | .bytesVal d => some (d.map .int)
  | .viewVal _ _ => none
  | .seq vs => some vs

/-- Result of an in-place `pack`/`set`: the new buffer contents plus the
exception (if one was raised after the writes already performed). -/
structure PackRes where
  buf : List Nat
  err : Option Err

/-- `codec.pack(window, value)` where `window` is the memoryview slice
`memoryview(buf)[offset : offset + codec.size]`:
* `BasicField.pack` is `self.st.pack_into(buf, 0, data)` — range-checks,
  then overwrites the first `nbytes` bytes;
* `Bytes.pack` checks `len(data) == self.size`, then `buf[:size] = data`;
* a nested `FieldSet.pack(buf, values)` checks the arity, then runs
  `for i, v in enumerate(values): self.set(buf, i, v)`, where
  `set` packs field `i` into the sub-window at the field's offset.
Errors leave exactly the writes performed so far in place. -/
def Field.pack : Field → List Nat → Value → PackRes
  | .basic bf, w, v =>
    match v with
    | .int i =>
      if w.length < bf.nbytes then ⟨w, some .structErr⟩
      else if bf.inRange i then ⟨bf.encode i ++ w.drop bf.nbytes, none⟩
      else ⟨w, some .overflowErr⟩
    | _ => ⟨w, some .typeErr⟩
  | .bytes n, w, v =>
    match valueLen v with
    | none => ⟨w, some .typeErr⟩
    | some l =>
      if l ≠ n then ⟨w, some .bytesSizeMismatch⟩
      else
        match v with
        | .bytesVal d =>
          if w.length < n then ⟨w, some .memviewErr⟩
          else ⟨d ++ w.drop n, none⟩
        | _ => ⟨w, some .typeErr⟩
  | .group fs, w, v =>
    match toValues v with
    | none => ⟨w, some .typeErr⟩
    | some vs =>
      if vs.length ≠ fs.length then ⟨w, some .packArity⟩
      else goPack fs 0 w vs
where
  /-- The `for i, v in enumerate(values): self.set(buf, i, v)` loop, with
  the current field's offset threaded instead of re-indexing (field `i`'s
  offset is the running sum of the previous sizes; `packIdx_eq_goPack`
  below proves this equal to the index-based loop). -/
  goPack : List Field → Nat → List Nat → List Value → PackRes
  | [], _, w, _ => ⟨w, none⟩
  | _ :: _, _, w, [] => ⟨w, none⟩
  | f :: fs, off, w, v :: vs =>
    let r := Field.pack f (readBytes w off f.size) v
    let w' := writeBytes w off r.buf
    match r.err with
    | some e => ⟨w', some e⟩
    | none => goPack fs (off + f.size) w' vs

/-- `codec.unpack(window)`:
* `BasicField.unpack` is `self.st.unpack(buf)[0]`;
* `Bytes.unpack` is `res = buf(window[:size])` — constructing a `buf`
  (a `bytearray` subclass) **copies** the bytes — followed by the length
  check `len(res) == size`;
* a nested `FieldSet.unpack(window)` returns `self._bound(window)`, a bound
  view whose `__init__` only checks `len(buf) >= self._fieldset.size`. -/
def Field.unpack : Field → List Nat → Except Err Value
  | .basic bf, w => (bf.unpack w).map .int
  | .bytes n, w =>
    let res := w.take n
    if res.length ≠ n then .error .bytesShortErr else .ok (.bytesVal res)
  | .group fs, w =>
    if w.length < sizeList fs then .error .boundsErr else .ok (.viewVal fs w)

/-- `FieldSet(fields)` — only the emptiness check can fail; offsets and
size are pure functions of the field list (`fsOffsets`, `sizeList`). -/
def FieldSet.init (fields : List Field) : Except Err (List Field) :=
  if fields.length = 0 then .error .emptyFieldSet else .ok fields

/-- `FieldSet.get(buf, index)`:
`f.unpack(memoryview(buf)[offset : offset + f.size])`. -/
def FieldSet.get (fields : List Field) (b : List Nat) (i : Nat) :
    Except Err Value :=
  match fields[i]?, (fsOffsets fields)[i]? with
  | some f, some off => f.unpack (readBytes b off f.size)
  | _, _ => .error .indexErr

/-- `FieldSet.set(buf, index, value)`:
`f.pack(memoryview(buf)[offset : offset + f.size], value)` in place. -/
def FieldSet.set (fields : List Field) (b : List Nat) (i : Nat) (v : Value) :
    PackRes :=
  match fields[i]?, (fsOffsets fields)[i]? with
  | some f, some off =>
    let r := f.pack (readBytes b off f.size) v
    ⟨writeBytes b off r.buf, r.err⟩
  | _, _ => ⟨b, some .indexErr⟩

/-- `FieldSet.pack(buf, values)` — the same method a nested field-set field
runs, so it is the `group` case of `Field.pack`. -/
def FieldSet.pack (fields : List Field) (b : List Nat) (vs : List Value) :
    PackRes :=
  Field.pack (.group fields) b (.seq vs)

/-- `FieldSet.unpack(buf) = self._bound(buf)`: bound-view construction,
which checks `len(buf) >= self._fieldset.size` and stores the buffer. -/
def FieldSet.unpack (fields : List Field) (b : List Nat) : Except Err Value :=
  Field.unpack (.group fields) b

/-- `Array(field, count) = FieldSet([field] * count)`. -/
def Array' (f : Field) (count : Nat) : Except Err Field :=
  (FieldSet.init (List.replicate count f)).map .group

/-- `FieldView.__getitem__` at an integer index. -/
def FieldView.getIdx (fields : List Field) (b : List Nat) (i : Nat) :
    Except Err Value :=
  FieldSet.get fields b i

/-- `FieldView.__setitem__` at an integer index. -/
def FieldView.setIdx (fields : List Field) (b : List Nat) (i : Nat)
    (v : Value) : PackRes :=
  FieldSet.set fields b i v

/-- `FieldView.__getitem__` with the full slice (`view[:]`): the tuple
`tuple(self[i] for i in range(len(self)))`. -/
def FieldView.readAll (fields : List Field) (b : List Nat) :
    Except Err (List Value) :=
  (List.range fields.length).mapM (FieldSet.get fields b)

/-- The index-based bulk-assignment loop exactly as written in the source
(`for i, v in enumerate(values): self.set(buf, i, v)`). -/
def packIdx (fields : List Field) : List Nat → List Value → Nat → PackRes
  | b, [], _ => ⟨b, none⟩
  | b, v :: vs, i =>
    let r := FieldSet.set fields b i v
    match r.err with
    | some e => ⟨r.buf, some e⟩
    | none => packIdx fields r.buf vs (i + 1)

/-! The module-level codec constants of `fields.py`. -/

def u8 : BasicField := ⟨1, false, false⟩
def byte : BasicField := u8
def i8 : BasicField := ⟨1, true, false⟩
def char : BasicField := i8
def u16 : BasicField := ⟨2, false, false⟩
def u16l : BasicField := u16
def u32 : BasicField := ⟨4, false, false⟩
def u32l : BasicField := u32
def u64 : BasicField := ⟨8, false, false⟩
def u64l : BasicField := u64
def u16b : BasicField := ⟨2, false, true⟩
def u32b : BasicField := ⟨4, false, true⟩
def u64b : BasicField := ⟨8, false, true⟩
def i16 : BasicField := ⟨2, true, false⟩
def i16l : BasicField := i16
def i32 : BasicField := ⟨4, true, false⟩
def i32l : BasicField := i32
def i64 : BasicField := ⟨8, true, false⟩
def i64l : BasicField := i64
def i16b : BasicField := ⟨2, true, true⟩
def i32b : BasicField := ⟨4, true, true⟩
def i64b : BasicField := ⟨8, true, true⟩

/-- A value of the module namespace reachable through `__all__`: either a
codec instance or one of the exported classes/functions (`FieldSet`,
`FieldMap`, `Bytes`, `Array`). -/
inductive RegEntry where
  | codec (f : Field) : RegEntry
  | fieldSetCls : RegEntry
  | fieldMapCls : RegEntry
  | bytesCls : RegEntry
  | arrayCls : RegEntry

/-- `TYPES = {x: globals()[x] for x in __all__}`, in `__all__` order. -/
def TYPES : List (String × RegEntry) :=
  [("u8", .codec (.basic u8)), ("byte", .codec (.basic byte)),
   ("i8", .codec (.basic i8)), ("char", .codec (.basic char)),
   ("u16", .codec (.basic u16)), ("u16l", .codec (.basic u16l)),
   ("u32", .codec (.basic u32)),
   ("u32l", .codec (.basic u32l)), ("u64", .codec (.basic u64)),
   ("u64l", .codec (.basic u64l)),
   ("u16b", .codec (.basic u16b)), ("u32b", .codec (.basic u32b)),
   ("u64b", .codec (.basic u64b)),
   ("i16", .codec (.basic i16)), ("i16l", .codec (.basic i16l)),
   ("i32", .codec (.basic i32)), ("i32l", .codec (.basic i32l)),
   ("i64", .codec (.basic i64)), ("i64l", .codec (.basic i64l)),
   ("i16b", .codec (.basic i16b)), ("i32b", .codec (.basic i32b)),
   ("i64b", .codec (.basic i64b)),
   ("FieldSet", .fieldSetCls), ("FieldMap", .fieldMapCls),
   ("Bytes", .bytesCls), ("Array", .arrayCls)]

def lookupType (s : String) : Option RegEntry :=
  (TYPES.find? (fun p => p.1 = s)).map (·.2)

/-! ### The DSL tokenizer (`parse_dsl`'s `re.Scanner`) -/

/-- A token produced by the scanner. -/
inductive Tok where
  | name (s : String) : Tok
  | literal (n : Nat) : Tok
  | bopen (c : Char) : Tok
  | bclose (c : Char) : Tok
  | colon : Tok
deriving DecidableEq, Repr

def lbrace : Char := Char.ofNat 123
def rbrace : Char := Char.ofNat 125

/-- `[a-zA-Z_]` (the scanner is only ever applied to ASCII input here). -/
def isWordStart (c : Char) : Bool := c.isAlpha || c = '_'

/-- `\w` = `[a-zA-Z0-9_]`. -/
def isWordChar (c : Char) : Bool := c.isAlphanum || c = '_'

/-- `\s` = space, tab, newline, carriage return, form feed, vertical tab. -/
def isSpace (c : Char) : Bool :=
  c = ' ' || c = '\t' || c = '\n' || c = '\r' ||
  c = Char.ofNat 12 || c = Char.ofNat 11

def isOpenBracket (c : Char) : Bool := c = '(' || c = '[' || c = lbrace
def isCloseBracket (c : Char) : Bool := c = ')' || c = ']' || c = rbrace

def digitsToNat (ds : List Char) : Nat :=
  ds.foldl (fun acc c => acc * 10 + (c.toNat - '0'.toNat)) 0

/-- One maximal-munch scan step per pattern of the `re.Scanner`, fuelled so
the recursion is structural (the wrapper supplies fuel ≥ the input length,
which always suffices since every step consumes at least one character).
Returns the tokens matched plus the unmatched leftover characters. -/
def scanTokens : Nat → List Char → List Tok × List Char
  | 0, cs => ([], cs)
  | _ + 1, [] => ([], [])
  | fuel + 1, c :: cs =>
    if isWordStart c then
      let w := cs.takeWhile isWordChar
      let (ts, rest) := scanTokens fuel (cs.dropWhile isWordChar)
      (.name (String.mk (c :: w)) :: ts, rest)
    else if c.isDigit then
      let w := cs.takeWhile Char.isDigit
      let (ts, rest) := scanTokens fuel (cs.dropWhile Char.isDigit)
      (.literal (digitsToNat (c :: w)) :: ts, rest)
    else if isOpenBracket c then
      let (ts, rest) := scanTokens fuel cs
      (.bopen c :: ts, rest)
    else if isCloseBracket c then
      let (ts, rest) := scanTokens fuel cs
      (.bclose c :: ts, rest)
    else if c = ':' then
      let (ts, rest) := scanTokens fuel cs
      (.colon :: ts, rest)
    else if isSpace c then
      scanTokens fuel cs
    else
      ([], c :: cs)

/-- `re.Scanner(...).scan(s)` plus the leftover check:
`raise ValueError("... invalid token at %d" % (len(s) - len(leftover)))`. -/
def tokenize (s : String) : Except Err (List Tok) :=
  let (ts, leftover) := scanTokens (s.data.length + 1) s.data
  if leftover.isEmpty then .ok ts
  else .error (.invalidToken (s.data.length - leftover.length))

/-! ### Bracket grouping, `colonize` and `groupy` -/

/-- A registry class name, as stored in `TYPES` for the non-codec exports. -/
inductive RegCls where
  | fieldSetCls : RegCls
  | fieldMapCls : RegCls
  | bytesCls : RegCls
  | arrayCls : RegCls
deriving DecidableEq, Repr

/-- A parsed field type: a concrete codec, a bare registry class that
slipped through the name lookup (the source keeps the class object), or a
nested field list produced for a `{...}` group. -/
inductive PField where
  | fld (f : Field) : PField
  | cls (c : RegCls) : PField
  | struct (items : List (Option String × PField)) : PField

/-- A grouped token, after `bracketeer`: plain tokens, a
`('brackets%s' % btype, level)` group, or a `('fieldtype', v)` entry
introduced by `groupy`. -/
inductive GTok where
  | name (s : String) : GTok
  | literal (n : Nat) : GTok
  | colon : GTok
  | brk (btype : Char) (items : List GTok) : GTok
  | ftype (p : PField) : GTok

/-- `matching_bracket = {'(': ')', '[': ']', '{': '}'}`. -/
def matchingBracket (c : Char) : Char :=
  if c = '(' then ')' else if c = '[' then ']' else rbrace

/-- `bracketeer`: group the token stream by brackets, recursively.  The
source recurses over one shared iterator; this is the same traversal with
an explicit stack of open groups.  `mismatchedBrackets` is raised when a
closer does not match the innermost opener (or appears at top level);
`unmatchedBrackets` when input ends inside a group. -/
def bracketeer (toks : List Tok) : Except Err (List GTok) :=
  go [] [] toks
where
  go (stack : List (Char × List GTok)) (cur : List GTok) :
      List Tok → Except Err (List GTok)
  | [] => if stack.isEmpty then .ok cur.reverse else .error .unmatchedBrackets
  | .bopen c :: rest => go ((c, cur) :: stack) [] rest
  | .bclose c :: rest =>
    match stack with
    | [] => .error .mismatchedBrackets
    | (b, outer) :: stack' =>
      if c = matchingBracket b then
        go stack' (.brk b cur.reverse :: outer) rest
      else .error .mismatchedBrackets
  | .name s :: rest => go stack (.name s :: cur) rest
  | .literal n :: rest => go stack (.literal n :: cur) rest
  | .colon :: rest => go stack (.colon :: cur) rest

/-- Pass 1 of `colonize`: pair names with the types that follow a colon;
tokens not followed by a colon become nameless fields.  The running `last`
token is the one that may yet be claimed as a field name. -/
def colonize1 : Option GTok → List GTok → Except Err (List (Option String × Option GTok))
  | none, [] => .ok []
  | some t, [] => .ok [(none, some t)]
  | last, .colon :: rest =>
    match rest with
    | [] => .error .noFieldType
    | ftype :: rest' =>
      match last with
      | none => .error .noFieldName
      | some (.name nm) => do
        let r ← colonize1 none rest'
        pure ((some nm, some ftype) :: r)
      | some _ => .error .invalidFieldName
  | last, t :: rest => do
    let r ← colonize1 (some t) rest
    pure ((none, last) :: r)

/-- Pass 2 of `colonize`: resolve each paired field type — a name through
`TYPES` (a missing name is a `KeyError`), a `('fieldtype', v)` as-is, a
literal as the `Bytes` shorthand; anything else is an invalid field type. -/
def colonize2 : List (Option String × Option GTok) → Except Err (List (Option String × PField))
  | [] => .ok []
  | (_, none) :: rest => colonize2 rest
  | (fname, some (.name s)) :: rest =>
    match lookupType s with
    | none => .error (.keyError s)
    | some (.codec f) => do
      let r ← colonize2 rest
      pure ((fname, .fld f) :: r)
    | some .fieldSetCls => do
      let r ← colonize2 rest
      pure ((fname, .cls .fieldSetCls) :: r)
    | some .fieldMapCls => do
      let r ← colonize2 rest
      pure ((fname, .cls .fieldMapCls) :: r)
    | some .bytesCls => do
      let r ← colonize2 rest
      pure ((fname, .cls .bytesCls) :: r)
    | some .arrayCls => do
      let r ← colonize2 rest
      pure ((fname, .cls .arrayCls) :: r)
  | (fname, some (.ftype p)) :: rest => do
    let r ← colonize2 rest
    pure ((fname, p) :: r)
  | (fname, some (.literal n)) :: rest => do
    let r ← colonize2 rest
    pure ((fname, .fld (.bytes n)) :: r)
  | (_, some .colon) :: _ => .error .invalidFieldType
  | (_, some (.brk _ _)) :: _ => .error .invalidFieldType

def colonize (toks : List GTok) : Except Err (List (Option String × PField)) :=
  colonize1 none toks >>= colonize2

/-- `groupy`, run on a bracket group's member list: resolve `[n]`/`(n)`
array suffixes and `{...}` sub-structures, then hand the result to
`colonize`.  An array suffix pops the preceding token; a name is resolved
through `TYPES` and `Bytes` arrays collapse to a single `Bytes(n)` field,
any other base becomes `Array(field, n) = FieldSet([field] * n)`
(a class or a raw spec list as array base has no `.size`, so `FieldSet`'s
size sum raises `AttributeError` — after the emptiness check). -/
def GTok.groupyRun : GTok → Except Err (List (Option String × PField))
  | .brk _ items => go [] items >>= colonize
  | _ => .error .invalidFieldType
where
  go (res : List GTok) : List GTok → Except Err (List GTok)
  | [] => .ok res.reverse
  | t :: rest =>
    match t with
    | .brk c items =>
      if c = '[' || c = '(' then
        match items with
        | [.literal n] =>
          match res with
          | [] => .error .noArrayField
          | last :: res' =>
            match last with
            | .name s =>
              match lookupType s with
              | none => .error (.keyError s)
              | some (.codec f) =>
                match Array' f n with
                | .error e => .error e
                | .ok arr => go (.ftype (.fld arr) :: res') rest
              | some .bytesCls => go (.ftype (.fld (.bytes n)) :: res') rest
              | some _ =>
                if n = 0 then .error .emptyFieldSet else .error .attributeErr
            | .ftype (.fld f) =>
              match Array' f n with
              | .error e => .error e
              | .ok arr => go (.ftype (.fld arr) :: res') rest
            | .ftype (.cls .bytesCls) => go (.ftype (.fld (.bytes n)) :: res') rest
            | .ftype (.cls _) =>
              if n = 0 then .error .emptyFieldSet else .error .attributeErr
            | .ftype (.struct _) =>
              if n = 0 then .error .emptyFieldSet else .error .attributeErr
            | .literal _ => .error .invalidArrayType
            | .colon => .error .invalidArrayType
            | .brk _ _ => .error .invalidArrayType
        | _ => .error .invalidArray
      else if c = lbrace then
        match GTok.groupyRun t with
        | .error e => .error e
        | .ok r => go (.ftype (.struct r) :: res) rest
      else go (t :: res) rest
    | _ => go (t :: res) rest

def groupy (toks : List GTok) : Except Err (List (Option String × PField)) :=
  GTok.groupyRun (.brk lbrace toks)

/-- `parse_dsl`: tokenize, group by brackets, unwrap a single top-level
`{...}` group, then `groupy`. -/
def parse_dsl (s : String) : Except Err (List (Option String × PField)) := do
  let toks ← tokenize s
  let g ← bracketeer toks
  match g with
  | [.brk b items] => if b = lbrace then groupy items else groupy g
  | _ => groupy g

/-! ### `FieldMap` -/

/-- A compiled `FieldMap`: the underlying `FieldSet` field list plus the
name→index table (`self.names`). -/
structure FieldMapS where
  fields : List Field
  names : List (String × Nat)

/-- Resolve one field-spec entry to a codec the way `FieldMap.__init__`
does: a nested list becomes a recursively constructed `FieldMap` (run in
full, including its own duplicate/emptiness checks); a codec stays itself;
a registry class object is kept as-is (`none`) and only blows up with
`AttributeError` when `FieldSet.__init__` sums the sizes.  The nested
names tables are only reachable through the nested bound view and are
dropped here. -/
def PField.toField : PField → Except Err (Option Field)
  | .fld f => .ok (some f)
  | .cls _ => .ok none
  | .struct its =>
    match goItems 0 [] [] its with
    | .error e => .error e
    | .ok (fAcc, _) =>
      if fAcc.length = 0 then .error .emptyFieldSet
      else if fAcc.any Option.isNone then .error .attributeErr
      else .ok (some (.group (fAcc.filterMap id)))
where
  /-- The `for i, v in enumerate(fieldspec)` loop: resolve the value,
  append it, and record a named field's index after checking it is not
  already defined at this level. -/
  goItems (i : Nat) (fAcc : List (Option Field)) (nAcc : List (String × Nat)) :
      List (Option String × PField) →
      Except Err (List (Option Field) × List (String × Nat))
  | [] => .ok (fAcc.reverse, nAcc.reverse)
  | (k, v) :: rest =>
    match PField.toField v with
    | .error e => .error e
    | .ok of =>
      match k with
      | some nm =>
        if nAcc.any (fun p => p.1 = nm) then .error (.duplicateName nm)
        else goItems (i + 1) (of :: fAcc) ((nm, i) :: nAcc) rest
      | none => goItems (i + 1) (of :: fAcc) nAcc rest

/-- `FieldMap(fieldspec)` for an already-parsed spec list: the resolution
loop, then `super().__init__(fields)` (`FieldSet.__init__`), whose
emptiness check precedes the size sum (where a leftover class object
raises `AttributeError`). -/
def FieldMap.init (items : List (Option String × PField)) :
    Except Err FieldMapS :=
  match PField.toField.goItems 0 [] [] items with
  | .error e => .error e
  | .ok (fAcc, names) =>
    if fAcc.length = 0 then .error .emptyFieldSet
    else if fAcc.any Option.isNone then .error .attributeErr
    else .ok ⟨fAcc.filterMap id, names⟩

/-- `FieldMap(s)` for a DSL string: `fieldspec = parse_dsl(fieldspec)`
followed by the construction loop. -/
def FieldMap.ofStr (s : String) : Except Err FieldMapS :=
  parse_dsl s >>= FieldMap.init

/-- Concatenation of the scalar encodings of a value list — the buffer
contents a successful scalar-only bulk `pack` should produce. -/
def encodeAll : List BasicField → List Int → List Nat
  | bf :: bfs, v :: vs => bf.encode v ++ encodeAll bfs vs
  | _, _ => []

/-! ## Lemmas -/

theorem length_readBytes (b : List Nat) (off len : Nat) :
    (readBytes b off len).length = min len (b.length - off) := by
  simp [readBytes]

theorem length_writeBytes (b d : List Nat) (off : Nat)
    (h : off + d.length ≤ b.length) :
    (writeBytes b off d).length = b.length := by
  simp [writeBytes]
  omega

theorem readBytes_all (b : List Nat) (len : Nat) (h : b.length ≤ len) :
    readBytes b 0 len = b := by
  simp [readBytes, List.take_of_length_le h]

/-- Writing back the bytes just read is the identity. -/
theorem writeBytes_readBytes_self (b : List Nat) (off len : Nat) :
    writeBytes b off (readBytes b off len) = b := by
  unfold writeBytes readBytes
  have hlen : ((b.drop off).take len).length = min len (b.length - off) := by
    simp
  rw [hlen]
  have hsplit : b.drop (off + min len (b.length - off)) = (b.drop off).drop len := by
    rcases Nat.le_total len (b.length - off) with h | h
    · rw [Nat.min_eq_left h, List.drop_drop]
    · rw [Nat.min_eq_right h]
      have h1 : b.length ≤ off + (b.length - off) := by omega
      have h2 : (b.drop off).length ≤ len := by simp; omega
      rw [List.drop_eq_nil_of_le h1, List.drop_eq_nil_of_le h2]
  rw [hsplit, List.append_assoc, List.take_append_drop, List.take_append_drop]

/-- Pointwise view of an in-bounds window write. -/
theorem getElem?_writeBytes (b d : List Nat) (off : Nat)
    (h : off + d.length ≤ b.length) (j : Nat) :
    (writeBytes b off d)[j]? =
      if j < off then b[j]?
      else if j < off + d.length then d[j - off]?
      else b[j]? := by
  have hoff : (b.take off).length = off := by simp; omega
  unfold writeBytes
  rcases Nat.lt_or_ge j (off + d.length) with hj | hj
  · have hlt : j < (b.take off ++ d).length := by simp [hoff]; omega
    rw [List.getElem?_append_left hlt]
    rcases Nat.lt_or_ge j off with hj2 | hj2
    · rw [List.getElem?_append_left (by rw [hoff]; exact hj2), List.getElem?_take]
      simp [hj2]
    · rw [List.getElem?_append_right (by rw [hoff]; exact hj2), hoff]
      have : ¬ j < off := by omega
      simp [this, hj]
  · have hge : (b.take off ++ d).length ≤ j := by simp [hoff]; omega
    rw [List.getElem?_append_right hge, List.getElem?_drop]
    have h1 : ¬ j < off := by omega
    have h2 : ¬ j < off + d.length := by omega
    simp only [hoff, h1, h2, if_false, List.length_append]
    congr 1
    omega

theorem getElem?_readBytes (b : List Nat) (off len j : Nat) :
    (readBytes b off len)[j]? = if j < len then b[off + j]? else none := by
  simp [readBytes, List.getElem?_take, List.getElem?_drop]

/-- A write strictly after a window does not change the window. -/
theorem readBytes_writeBytes_before (b d : List Nat) (a l off : Nat)
    (h : a + l ≤ off) (hw : off + d.length ≤ b.length) :
    readBytes (writeBytes b off d) a l = readBytes b a l := by
  apply List.ext_getElem?
  intro j
  rw [getElem?_readBytes, getElem?_readBytes]
  rcases Nat.lt_or_ge j l with hj | hj
  · simp only [hj, if_true]
    rw [getElem?_writeBytes b d off hw]
    have : a + j < off := by omega
    simp [this]
  · simp [Nat.not_lt.mpr hj]

/-- A write strictly before a window does not change the window. -/
theorem readBytes_writeBytes_after (b d : List Nat) (a l off : Nat)
    (h : off + d.length ≤ a) (hw : off + d.length ≤ b.length) :
    readBytes (writeBytes b off d) a l = readBytes b a l := by
  apply List.ext_getElem?
  intro j
  rw [getElem?_readBytes, getElem?_readBytes]
  rcases Nat.lt_or_ge j l with hj | hj
  · simp only [hj, if_true]
    rw [getElem?_writeBytes b d off hw]
    have h1 : ¬ a + j < off := by omega
    have h2 : ¬ a + j < off + d.length := by omega
    simp [h1, h2]
  · simp [Nat.not_lt.mpr hj]

/-- Reading back exactly the window just written yields the written data. -/
theorem readBytes_writeBytes_self (b d : List Nat) (off : Nat)
    (hw : off + d.length ≤ b.length) :
    readBytes (writeBytes b off d) off d.length = d := by
  apply List.ext_getElem?
  intro j
  rw [getElem?_readBytes]
  rcases Nat.lt_or_ge j d.length with hj | hj
  · simp only [hj, if_true]
    rw [getElem?_writeBytes b d off hw]
    have h1 : ¬ off + j < off := by omega
    have h2 : off + j < off + d.length := by omega
    simp [h1, h2]
  · rw [List.getElem?_eq_none hj]
    simp [Nat.not_lt.mpr hj]

/-! ### Scalar codec lemmas -/

theorem length_leBytes (v k : Nat) : (leBytes v k).length = k := by
  induction k generalizing v with
  | zero => rfl
  | succ k ih => simp [leBytes, ih]

theorem natFromLE_leBytes (v k : Nat) :
    natFromLE (leBytes v k) = v % 256 ^ k := by
  induction k generalizing v with
  | zero => simp [leBytes, natFromLE, Nat.mod_one]
  | succ k ih =>
    simp only [leBytes, natFromLE, ih]
    rw [Nat.pow_succ, Nat.mul_comm (256 ^ k) 256, Nat.mod_mul]

theorem length_encode (bf : BasicField) (v : Int) :
    (bf.encode v).length = bf.nbytes := by
  unfold BasicField.encode
  by_cases h : bf.bigEndian <;> simp [h, length_leBytes]

theorem pow256_eq (n : Nat) : (256 : Nat) ^ n = 2 ^ (8 * n) := by
  rw [show (256 : Nat) = 2 ^ 8 by norm_num, ← pow_mul]

/-- `struct.unpack` decodes what `struct.pack` encoded, for any in-range
value of a codec of at least one byte. -/
theorem unpack_encode (bf : BasicField) (v : Int) (hn : 0 < bf.nbytes)
    (h : bf.inRange v = true) : bf.unpack (bf.encode v) = .ok v := by
  have hm : (0 : Int) < (2 : Int) ^ (8 * bf.nbytes) := by positivity
  have hmod_lt : v % (2 : Int) ^ (8 * bf.nbytes) < (2 : Int) ^ (8 * bf.nbytes) :=
    Int.emod_lt_of_pos v hm
  have hmod_nonneg : 0 ≤ v % (2 : Int) ^ (8 * bf.nbytes) :=
    Int.emod_nonneg v (ne_of_gt hm)
  have hcastH : ((2 ^ (8 * bf.nbytes - 1) : Nat) : Int) = (2 : Int) ^ (8 * bf.nbytes - 1) := by
    push_cast
    ring
  have hcastM : ((2 ^ (8 * bf.nbytes) : Nat) : Int) = (2 : Int) ^ (8 * bf.nbytes) := by
    push_cast
    ring
  have hhalf : (2 : Int) ^ (8 * bf.nbytes - 1) * 2 = (2 : Int) ^ (8 * bf.nbytes) := by
    rw [← pow_succ]
    congr 1
    omega
  have hvm_pos : 0 ≤ v → v < (2 : Int) ^ (8 * bf.nbytes) →
      v % (2 : Int) ^ (8 * bf.nbytes) = v := fun h1 h2 => Int.emod_eq_of_lt h1 h2
  have hvm_neg : -((2 : Int) ^ (8 * bf.nbytes)) ≤ v → v < 0 →
      v % (2 : Int) ^ (8 * bf.nbytes) = v + (2 : Int) ^ (8 * bf.nbytes) := by
    intro h1 h2
    have h3 := Int.add_mul_emod_self_left v ((2 : Int) ^ (8 * bf.nbytes)) 1
    rw [mul_one] at h3
    rw [← h3]
    exact Int.emod_eq_of_lt (by omega) (by omega)
  have hu_lt : (v % (2 : Int) ^ (8 * bf.nbytes)).toNat < 256 ^ bf.nbytes := by
    rw [pow256_eq]
    push_cast at hmod_lt hmod_nonneg
    omega
  have hdecoded : natFromLE (leBytes (v % (2 : Int) ^ (8 * bf.nbytes)).toNat bf.nbytes)
      = (v % (2 : Int) ^ (8 * bf.nbytes)).toNat := by
    rw [natFromLE_leBytes, Nat.mod_eq_of_lt hu_lt]
  unfold BasicField.unpack BasicField.encode
  have hlen : (if bf.bigEndian then
      (leBytes (v % (2 : Int) ^ (8 * bf.nbytes)).toNat bf.nbytes).reverse
    else leBytes (v % (2 : Int) ^ (8 * bf.nbytes)).toNat bf.nbytes).length = bf.nbytes := by
    by_cases hbe : bf.bigEndian <;> simp [hbe, length_leBytes]
  rw [if_pos hlen]
  have hw : natFromLE (if bf.bigEndian then
        ((if bf.bigEndian then
            (leBytes (v % (2 : Int) ^ (8 * bf.nbytes)).toNat bf.nbytes).reverse
          else leBytes (v % (2 : Int) ^ (8 * bf.nbytes)).toNat bf.nbytes)).reverse
      else (if bf.bigEndian then
            (leBytes (v % (2 : Int) ^ (8 * bf.nbytes)).toNat bf.nbytes).reverse
          else leBytes (v % (2 : Int) ^ (8 * bf.nbytes)).toNat bf.nbytes))
      = (v % (2 : Int) ^ (8 * bf.nbytes)).toNat := by
    by_cases hbe : bf.bigEndian <;> simp [hbe, List.reverse_reverse, hdecoded]
  simp only [hw]
  by_cases hs : bf.signed
  · simp [BasicField.inRange, hs] at h
    split_ifs with hc
    · simp only [hs, Bool.true_and, decide_eq_true_eq] at hc
      congr 1
      rcases Int.le_or_lt 0 v with hv | hv
      · exfalso
        have h5 := hvm_pos hv (by omega)
        push_cast at h h5
        omega
      · have h5 := hvm_neg (by omega) hv
        push_cast at h h5 ⊢
        omega
    · simp only [hs, Bool.true_and, decide_eq_true_eq, Nat.not_le] at hc
      congr 1
      rcases Int.le_or_lt 0 v with hv | hv
      · have h5 := hvm_pos hv (by omega)
        push_cast at h h5 ⊢
        omega
      · exfalso
        have h5 := hvm_neg (by omega) hv
        push_cast at h h5
        omega
  · simp [BasicField.inRange, hs] at h
    have hcond : (bf.signed && decide
        (2 ^ (8 * bf.nbytes - 1) ≤ (v % (2 : Int) ^ (8 * bf.nbytes)).toNat)) = false := by
      simp [hs]
    rw [hcond]
    simp only [Bool.false_eq_true, if_false]
    congr 1
    have h5 := hvm_pos h.1 (by exact h.2)
    push_cast at h h5 ⊢
    omega

/-! ### Offset-table lemmas -/

theorem sizeList_nil : sizeList [] = 0 := rfl

theorem sizeList_cons (f : Field) (fs : List Field) :
    sizeList (f :: fs) = f.size + sizeList fs := rfl

theorem sizeList_eq_sum (fs : List Field) :
    sizeList fs = (fs.map Field.size).sum := by
  induction fs with
  | nil => rfl
  | cons f fs ih => simp [sizeList_cons, ih]

theorem sizeList_append (xs ys : List Field) :
    sizeList (xs ++ ys) = sizeList xs + sizeList ys := by
  induction xs with
  | nil => simp [sizeList_nil]
  | cons f fs ih =>
    simp [sizeList_cons, ih]
    omega

theorem length_offsetsFrom (base : Nat) (fs : List Field) :
    (offsetsFrom base fs).length = fs.length := by
  induction fs generalizing base with
  | nil => rfl
  | cons f fs ih => simp [offsetsFrom, ih]

theorem getElem?_offsetsFrom (base : Nat) (fs : List Field) (i : Nat)
    (hi : i < fs.length) :
    (offsetsFrom base fs)[i]? = some (base + sizeList (fs.take i)) := by
  induction fs generalizing base i with
  | nil => simp at hi
  | cons f fs ih =>
    cases i with
    | zero => simp [offsetsFrom, sizeList_nil]
    | succ i =>
      simp only [offsetsFrom, List.getElem?_cons_succ]
      rw [ih (base + f.size) i (by simpa using hi)]
      simp [sizeList_cons]
      omega

theorem getElem?_fsOffsets (fs : List Field) (i : Nat) (hi : i < fs.length) :
    (fsOffsets fs)[i]? = some (sizeList (fs.take i)) := by
  unfold fsOffsets
  rw [getElem?_offsetsFrom 0 fs i hi, Nat.zero_add]

theorem sizeList_take_le (fs : List Field) (i : Nat) :
    sizeList (fs.take i) ≤ sizeList fs := by
  induction fs generalizing i with
  | nil => simp [sizeList_nil]
  | cons f fs ih =>
    cases i with
    | zero => simp [sizeList_nil, sizeList_cons]
    | succ i =>
      simp only [List.take_succ_cons, sizeList_cons]
      have := ih i
      omega

theorem sizeList_take_succ (fs : List Field) (i : Nat) (f : Field)
    (hf : fs[i]? = some f) :
    sizeList (fs.take (i + 1)) = sizeList (fs.take i) + f.size := by
  induction fs generalizing i with
  | nil => simp at hf
  | cons g fs ih =>
    cases i with
    | zero =>
      simp only [List.getElem?_cons_zero, Option.some.injEq] at hf
      subst hf
      simp [sizeList_cons, sizeList_nil]
    | succ i =>
      simp only [List.getElem?_cons_succ] at hf
      simp only [List.take_succ_cons, sizeList_cons, ih i hf]
      omega

/-- The field window `[offset i, offset i + size i)` lies inside the
schema's total size. -/
theorem offset_add_size_le (fs : List Field) (i : Nat) (f : Field)
    (hf : fs[i]? = some f) :
    sizeList (fs.take i) + f.size ≤ sizeList fs := by
  have hi : i < fs.length := (List.getElem?_eq_some.mp hf).1
  have h1 := sizeList_take_succ fs i f hf
  have h2 := sizeList_take_le fs (i + 1)
  omega

/-! ## Claim theorems -/

/-- C1: for every compiled schema built from a non-empty ordered field
list, the computed offset of field `i` equals the sum of the sizes of
fields `0..i-1` (in particular `offset[0] = 0`), and the schema's total
size equals the sum of all field sizes. -/
theorem c1_schema_offsets (fields s : List Field)
    (h : FieldSet.init fields = .ok s) :
    (∀ i, i < s.length →
      (fsOffsets s)[i]? = some (((s.take i).map Field.size).sum))
    ∧ sizeList s = (s.map Field.size).sum
    ∧ (fsOffsets s)[0]? = some 0 := by
  unfold FieldSet.init at h
  split at h
  · exact absurd h (by simp)
  · rename_i hne
    have hs : s = fields := by
      simpa using h.symm
    subst hs
    refine ⟨fun i hi => ?_, sizeList_eq_sum s, ?_⟩
    · rw [getElem?_fsOffsets s i hi, sizeList_eq_sum]
    · have h0 : 0 < s.length := by omega
      rw [getElem?_fsOffsets s 0 h0]
      simp [sizeList_nil]

theorem c1_schema_offsets_witness :
    (fsOffsets [Field.basic u16, Field.bytes 3, Field.basic u32])[2]?
      = some ((([Field.basic u16, Field.bytes 3, Field.basic u32].take 2).map
          Field.size).sum) :=
  (c1_schema_offsets [Field.basic u16, Field.bytes 3, Field.basic u32]
    [Field.basic u16, Field.bytes 3, Field.basic u32] rfl).1 2 (by decide)

/-- C4: binding a buffer shorter than the schema size fails with the
bounds error, and no byte of the buffer is read before the failure — the
outcome of `bind` is a function of the buffer's length alone. -/
theorem c4_bind_short (fields : List Field) (b : List Nat)
    (h : b.length < sizeList fields) :
    FieldSet.unpack fields b = .error .boundsErr
    ∧ ∀ b' : List Nat, b'.length = b.length →
        FieldSet.unpack fields b' = FieldSet.unpack fields b := by
  constructor
  · unfold FieldSet.unpack Field.unpack
    simp [h]
  · intro b' hb
    unfold FieldSet.unpack Field.unpack
    simp [h, hb ▸ h]

theorem c4_bind_short_witness :
    FieldSet.unpack [Field.basic u32] [1, 2, 3] = .error .boundsErr :=
  (c4_bind_short [Field.basic u32] [1, 2, 3] (by decide)).1

/-- C9: assigning a value whose length differs from `n` to a `Bytes(n)`
field fails with the size-mismatch error and leaves the whole backing
buffer (in particular the field's `n` bytes) unchanged, both through the
schema's `set` and through a bound view's item assignment. -/
theorem c9_bytes_set_mismatch (fields : List Field) (b d : List Nat)
    (i n : Nat) (hf : fields[i]? = some (.bytes n)) (hd : d.length ≠ n) :
    FieldSet.set fields b i (.bytesVal d) = ⟨b, some .bytesSizeMismatch⟩
    ∧ FieldView.setIdx fields b i (.bytesVal d)
        = ⟨b, some .bytesSizeMismatch⟩ := by
  have hi : i < fields.length := (List.getElem?_eq_some.mp hf).1
  have hoff := getElem?_fsOffsets fields i hi
  have hset : FieldSet.set fields b i (.bytesVal d)
      = ⟨b, some .bytesSizeMismatch⟩ := by
    unfold FieldSet.set
    rw [hf, hoff]
    simp only [Field.pack, valueLen]
    rw [if_pos hd]
    simp [writeBytes_readBytes_self]
  exact ⟨hset, hset⟩

theorem c9_bytes_set_mismatch_witness :
    FieldSet.set [Field.bytes 4] [9, 9, 9, 9] 0 (.bytesVal [1, 2, 3])
      = ⟨[9, 9, 9, 9], some .bytesSizeMismatch⟩ :=
  (c9_bytes_set_mismatch [Field.bytes 4] [9, 9, 9, 9] [1, 2, 3] 0 4 rfl
    (by decide)).1

/-- C3, counterexample.  The claim asserts that reading a `Bytes(n)` field
returns a live zero-copy view of the backing buffer, so that a later
mutation of those buffer bytes would be observable through the previously
returned value.  In the source, `Bytes.unpack` runs
`res = self.buftype(buf[:self.size])` — `buf` (a `bytearray` subclass)
copies the bytes of the memoryview it is constructed from — so the value
returned from the read is an owned snapshot: here it still holds `[5, 6]`
after the buffer's two bytes were overwritten with `[7, 8]`, instead of
reflecting the buffer's new contents as the claim requires. -/
theorem c3_bytes_read_counterexample :
    FieldSet.get [Field.bytes 2] [5, 6] 0 = .ok (.bytesVal [5, 6])
    ∧ writeBytes [5, 6] 0 [7, 8] = [7, 8]
    ∧ readBytes [7, 8] 0 2 = [7, 8]
    ∧ ([5, 6] : List Nat) ≠ [7, 8] :=
  ⟨rfl, rfl, rfl, by decide⟩

/-- C3, amended: reading a `Bytes(n)` field through a bound view returns
an owned copy (`buf(...)` constructs a fresh `bytearray`) of the `n` bytes
at the field's offset as they are at read time — not an aliasing view:
overwriting those buffer bytes afterwards changes the buffer but not the
already-returned value, whose payload stays the read-time snapshot. -/
theorem c3_bytes_read_returns_copy (fields : List Field) (b : List Nat)
    (i n off : Nat) (hf : fields[i]? = some (.bytes n))
    (hoff : (fsOffsets fields)[i]? = some off) (hin : off + n ≤ b.length) :
    FieldSet.get fields b i = .ok (.bytesVal (readBytes b off n))
    ∧ ∀ d : List Nat, d.length = n →
        readBytes (writeBytes b off d) off n = d := by
  constructor
  · have hw : (readBytes b off n).length = n := by
      rw [length_readBytes]
      omega
    simp only [FieldSet.get, hf, hoff, Field.unpack, Field.size]
    rw [List.take_of_length_le (le_of_eq hw)]
    simp [hw]
  · intro d hd
    have h2 := readBytes_writeBytes_self b d off (by omega)
    rw [hd] at h2
    exact h2

theorem c3_bytes_read_returns_copy_witness :
    FieldSet.get [Field.bytes 2] [5, 6] 0 = .ok (.bytesVal (readBytes [5, 6] 0 2))
    ∧ readBytes (writeBytes [5, 6] 0 [7, 8]) 0 2 = [7, 8] :=
  ⟨(c3_bytes_read_returns_copy [Field.bytes 2] [5, 6] 0 2 0 rfl rfl
      (by decide)).1,
   (c3_bytes_read_returns_copy [Field.bytes 2] [5, 6] 0 2 0 rfl rfl
      (by decide)).2 [7, 8] rfl⟩

/-- C6, counterexample.  The claim asserts the registry resolves the names
`f32`, `f64` and `bytes`; `TYPES` is built from `__all__`, which contains
none of them (no float codecs exist anywhere in the module, and the raw
codec is registered only under its class name `Bytes`). -/
theorem c6_registry_counterexample :
    lookupType "f32" = none ∧ lookupType "f64" = none
    ∧ lookupType "bytes" = none :=
  ⟨rfl, rfl, rfl⟩

/-- C6, amended: the registry maps exactly the names of `__all__` — the 22
integer codec names at the stated sizes plus the exported classes
`FieldSet`, `FieldMap`, `Bytes`, `Array` — and nothing else; in particular
`f32`, `f64` and lowercase `bytes` are absent (the module defines no float
codecs at all; raw spans are reachable as capitalized `Bytes` or the
integer-literal shorthand, whose compiled field has size equal to the
literal). -/
theorem c6_registry_contents :
    (∀ nm e, lookupType nm = some e → nm ∈ TYPES.map Prod.fst)
    ∧ lookupType "f32" = none ∧ lookupType "f64" = none
    ∧ lookupType "bytes" = none
    ∧ TYPES.map Prod.fst
      = ["u8", "byte", "i8", "char", "u16", "u16l", "u32", "u32l", "u64",
         "u64l", "u16b", "u32b", "u64b", "i16", "i16l", "i32", "i32l",
         "i64", "i64l", "i16b", "i32b", "i64b",
         "FieldSet", "FieldMap", "Bytes", "Array"]
    ∧ lookupType "u8" = some (.codec (.basic u8))
    ∧ lookupType "byte" = some (.codec (.basic u8))
    ∧ lookupType "i8" = some (.codec (.basic i8))
    ∧ lookupType "char" = some (.codec (.basic i8))
    ∧ lookupType "u16" = some (.codec (.basic u16))
    ∧ lookupType "u16l" = some (.codec (.basic u16))
    ∧ lookupType "u16b" = some (.codec (.basic u16b))
    ∧ lookupType "u32" = some (.codec (.basic u32))
    ∧ lookupType "u32l" = some (.codec (.basic u32))
    ∧ lookupType "u32b" = some (.codec (.basic u32b))
    ∧ lookupType "u64" = some (.codec (.basic u64))
    ∧ lookupType "u64l" = some (.codec (.basic u64))
    ∧ lookupType "u64b" = some (.codec (.basic u64b))
    ∧ lookupType "i16" = some (.codec (.basic i16))
    ∧ lookupType "i16l" = some (.codec (.basic i16))
    ∧ lookupType "i16b" = some (.codec (.basic i16b))
    ∧ lookupType "i32" = some (.codec (.basic i32))
    ∧ lookupType "i32l" = some (.codec (.basic i32))
    ∧ lookupType "i32b" = some (.codec (.basic i32b))
    ∧ lookupType "i64" = some (.codec (.basic i64))
    ∧ lookupType "i64l" = some (.codec (.basic i64))
    ∧ lookupType "i64b" = some (.codec (.basic i64b))
    ∧ lookupType "Bytes" = some .bytesCls
    ∧ lookupType "FieldSet" = some .fieldSetCls
    ∧ lookupType "FieldMap" = some .fieldMapCls
    ∧ lookupType "Array" = some .arrayCls
    ∧ (Field.basic u8).size = 1 ∧ (Field.basic i8).size = 1
    ∧ (Field.basic u16).size = 2 ∧ (Field.basic u16b).size = 2
    ∧ (Field.basic u32).size = 4 ∧ (Field.basic u32b).size = 4
    ∧ (Field.basic u64).size = 8 ∧ (Field.basic u64b).size = 8
    ∧ (Field.basic i16).size = 2 ∧ (Field.basic i16b).size = 2
    ∧ (Field.basic i32).size = 4 ∧ (Field.basic i32b).size = 4
    ∧ (Field.basic i64).size = 8 ∧ (Field.basic i64b).size = 8
    ∧ ∀ n : Nat, (Field.bytes n).size = n := by
  refine ⟨?_, ?_⟩
  · intro nm e h
    unfold lookupType at h
    rcases hfind : TYPES.find? (fun p => p.1 = nm) with _ | p
    · rw [hfind] at h
      simp at h
    · have hmem := List.mem_of_find?_eq_some hfind
      have hp := List.find?_some hfind
      simp only [decide_eq_true_eq] at hp
      subst hp
      exact List.mem_map_of_mem Prod.fst hmem
  · and_intros <;> first | rfl | exact fun n => rfl

theorem c6_registry_contents_witness :
    "u16" ∈ TYPES.map Prod.fst :=
  c6_registry_contents.1 "u16" (.codec (.basic u16)) rfl

/-- C7, counterexample.  The claim says schema construction from the DSL
text `"a:u8, a:u8"` fails with the duplicate-field-name schema error.  It
does fail — but in the tokenizer: the `re.Scanner` has no pattern for
`,`, so scanning stops at offset 4 and `parse_dsl` raises the
invalid-token syntax error; the duplicate-name check is never reached. -/
theorem c7_duplicate_dsl_counterexample :
    FieldMap.ofStr "a:u8, a:u8" = .error (.invalidToken 4)
    ∧ ∀ nm : String, Err.invalidToken 4 ≠ Err.duplicateName nm :=
  ⟨rfl, fun _ h => Err.noConfusion h⟩

/-- C7, amended: construction from `"a:u8, a:u8"` fails, but with the
tokenizer's invalid-token syntax error at offset 4 (the comma is not a
recognized token), not with the duplicate-name error; the duplicate-name
schema error is raised for the comma-free spelling `"a:u8 a:u8"`; and
construction from an empty field list fails with the empty-field-set
schema error (both through `FieldMap` and `FieldSet`). -/
theorem c7_duplicate_and_empty :
    FieldMap.ofStr "a:u8, a:u8" = .error (.invalidToken 4)
    ∧ FieldMap.ofStr "a:u8 a:u8" = .error (.duplicateName "a")
    ∧ FieldMap.init [] = .error .emptyFieldSet
    ∧ FieldSet.init [] = .error .emptyFieldSet :=
  ⟨rfl, rfl, rfl, rfl⟩

/-- C8: for every scalar registry type (a `TYPES` entry holding a codec)
and positive count `n`, the parsed DSL field `name: T[n]` compiles to `n`
consecutive repetitions of that codec (an `Array(field, n)`, i.e. a
`FieldSet` of `n` copies); concretely, `"a: u16[3]"` bound over the bytes
`01 00 02 00 03 00` yields the three values 1, 2, 3, each individually
addressable by position on the bound view. -/
theorem c8_array_expansion (nm T : String) (n : Nat) (f : Field)
    (hT : lookupType T = some (.codec f)) (hn : 0 < n) :
    groupy [.name nm, .colon, .name T, .brk '[' [.literal n]]
      = .ok [(some nm, .fld (.group (List.replicate n f)))]
    ∧ (FieldMap.ofStr "a: u16[3]").map FieldMapS.fields
      = .ok [Field.group [.basic u16, .basic u16, .basic u16]]
    ∧ (FieldMap.ofStr "a: u16[3]").map FieldMapS.names = .ok [("a", 0)]
    ∧ FieldSet.unpack [Field.group [.basic u16, .basic u16, .basic u16]]
        [1, 0, 2, 0, 3, 0]
      = .ok (.viewVal [Field.group [.basic u16, .basic u16, .basic u16]]
          [1, 0, 2, 0, 3, 0])
    ∧ FieldView.getIdx [Field.group [.basic u16, .basic u16, .basic u16]]
        [1, 0, 2, 0, 3, 0] 0
      = .ok (.viewVal [.basic u16, .basic u16, .basic u16] [1, 0, 2, 0, 3, 0])
    ∧ FieldView.getIdx [.basic u16, .basic u16, .basic u16]
        [1, 0, 2, 0, 3, 0] 0 = .ok (.int 1)
    ∧ FieldView.getIdx [.basic u16, .basic u16, .basic u16]
        [1, 0, 2, 0, 3, 0] 1 = .ok (.int 2)
    ∧ FieldView.getIdx [.basic u16, .basic u16, .basic u16]
        [1, 0, 2, 0, 3, 0] 2 = .ok (.int 3) := by
  refine ⟨?_, rfl, rfl, rfl, rfl, rfl, rfl, rfl⟩
  have hinit : FieldSet.init (List.replicate n f) = .ok (List.replicate n f) := by
    unfold FieldSet.init
    rw [if_neg (by simp; omega)]
  simp only [groupy, GTok.groupyRun, GTok.groupyRun.go, hT, Array', hinit]
  rfl

theorem c8_array_expansion_witness :
    groupy [.name "a", .colon, .name "u16", .brk '[' [.literal 3]]
      = .ok [(some "a", .fld (.group (List.replicate 3 (.basic u16))))] :=
  (c8_array_expansion "a" "u16" 3 (.basic u16) rfl (by decide)).1

/-- Simultaneous induction over `Field` and `List Field` (the nested
recursor, packaged without named motives). -/
theorem fieldInduction (P : Field → Prop) (Q : List Field → Prop)
    (hbasic : ∀ bf, P (.basic bf))
    (hbytes : ∀ n, P (.bytes n))
    (hgroup : ∀ fs, Q fs → P (.group fs))
    (hnil : Q [])
    (hcons : ∀ f fs, P f → Q fs → Q (f :: fs)) :
    (∀ f, P f) ∧ ∀ fs, Q fs := by
  have hP : ∀ f, P f := fun f => @Field.rec P Q hbasic hbytes hgroup hnil hcons f
  refine ⟨hP, fun fs => ?_⟩
  induction fs with
  | nil => exact hnil
  | cons f fs ih => exact hcons f fs (hP f) ih

theorem length_writeBytes_window (w d : List Nat) (off l : Nat)
    (hd : d.length = (readBytes w off l).length) :
    (writeBytes w off d).length = w.length := by
  rw [length_readBytes] at hd
  simp [writeBytes]
  omega

/-! Definitional equations for `Field.pack`, one per constructor shape
(the nested-recursive definition does not get automatic equation lemmas
usable by `simp`). -/

theorem pack_basic_int (bf : BasicField) (w : List Nat) (i : Int) :
    Field.pack (.basic bf) w (.int i)
      = if w.length < bf.nbytes then ⟨w, some .structErr⟩
        else if bf.inRange i then ⟨bf.encode i ++ w.drop bf.nbytes, none⟩
        else ⟨w, some .overflowErr⟩ := rfl

theorem pack_bytes_bytesVal (n : Nat) (w d : List Nat) :
    Field.pack (.bytes n) w (.bytesVal d)
      = if d.length ≠ n then ⟨w, some .bytesSizeMismatch⟩
        else if w.length < n then ⟨w, some .memviewErr⟩
        else ⟨d ++ w.drop n, none⟩ := rfl

theorem pack_bytes_viewVal (n : Nat) (w : List Nat) (fs : List Field)
    (wv : List Nat) :
    Field.pack (.bytes n) w (.viewVal fs wv)
      = if fs.length ≠ n then ⟨w, some .bytesSizeMismatch⟩
        else ⟨w, some .typeErr⟩ := rfl

theorem pack_bytes_seq (n : Nat) (w : List Nat) (vs : List Value) :
    Field.pack (.bytes n) w (.seq vs)
      = if vs.length ≠ n then ⟨w, some .bytesSizeMismatch⟩
        else ⟨w, some .typeErr⟩ := rfl

theorem pack_group_seq (fs : List Field) (w : List Nat) (vs : List Value) :
    Field.pack (.group fs) w (.seq vs)
      = if vs.length ≠ fs.length then ⟨w, some .packArity⟩
        else Field.pack.goPack fs 0 w vs := rfl

theorem pack_group_bytesVal (fs : List Field) (w d : List Nat) :
    Field.pack (.group fs) w (.bytesVal d)
      = if (d.map Value.int).length ≠ fs.length then ⟨w, some .packArity⟩
        else Field.pack.goPack fs 0 w (d.map Value.int) := rfl

theorem goPack_nil (off : Nat) (w : List Nat) (vs : List Value) :
    Field.pack.goPack [] off w vs = ⟨w, none⟩ := by
  cases vs <;> rfl

theorem goPack_cons_nil (f : Field) (fs : List Field) (off : Nat)
    (w : List Nat) :
    Field.pack.goPack (f :: fs) off w [] = ⟨w, none⟩ := rfl

theorem goPack_cons (f : Field) (fs : List Field) (off : Nat) (w : List Nat)
    (v : Value) (vs : List Value) :
    Field.pack.goPack (f :: fs) off w (v :: vs)
      = match (Field.pack f (readBytes w off f.size) v).err with
        | some e =>
          ⟨writeBytes w off (Field.pack f (readBytes w off f.size) v).buf,
           some e⟩
        | none =>
          Field.pack.goPack fs (off + f.size)
            (writeBytes w off (Field.pack f (readBytes w off f.size) v).buf)
            vs := rfl

/-- `codec.pack` only ever rewrites its window in place: the window's
length is preserved, for every field shape and value. -/
theorem pack_preserves_length :
    (∀ f : Field, ∀ (w : List Nat) (v : Value),
      ((Field.pack f w v).buf).length = w.length)
    ∧ ∀ fs : List Field, ∀ (off : Nat) (w : List Nat) (vs : List Value),
      ((Field.pack.goPack fs off w vs).buf).length = w.length := by
  refine fieldInduction
    (fun f => ∀ (w : List Nat) (v : Value),
      ((Field.pack f w v).buf).length = w.length)
    (fun fs => ∀ (off : Nat) (w : List Nat) (vs : List Value),
      ((Field.pack.goPack fs off w vs).buf).length = w.length)
    ?_ ?_ ?_ ?_ ?_
  · intro bf w v
    match v with
    | .int i =>
      rw [pack_basic_int]
      split_ifs with h1 h2 <;> simp [length_encode]
      omega
    | .bytesVal d => rfl
    | .viewVal fs wv => rfl
    | .seq vs => rfl
  · intro n w v
    match v with
    | .int i => rfl
    | .viewVal fs wv =>
      rw [pack_bytes_viewVal]
      split_ifs <;> rfl
    | .seq vs =>
      rw [pack_bytes_seq]
      split_ifs <;> rfl
    | .bytesVal d =>
      rw [pack_bytes_bytesVal]
      split_ifs with h1 h2 <;> simp
      omega
  · intro fs ih w v
    match v with
    | .int i => rfl
    | .viewVal fs2 wv => rfl
    | .bytesVal d =>
      rw [pack_group_bytesVal]
      split_ifs with h1
      · rfl
      · exact ih 0 w (d.map Value.int)
    | .seq vs =>
      rw [pack_group_seq]
      split_ifs with h1
      · rfl
      · exact ih 0 w vs
  · intro off w vs
    rw [goPack_nil]
  · intro f fs ihf ihfs off w vs
    match vs with
    | [] => rw [goPack_cons_nil]
    | v :: vs2 =>
      have hwin : ((Field.pack f (readBytes w off f.size) v).buf).length
          = (readBytes w off f.size).length := ihf _ v
      have hw2 : (writeBytes w off (Field.pack f (readBytes w off f.size) v).buf).length
          = w.length :=
        length_writeBytes_window w _ off f.size hwin
      rw [goPack_cons]
      rcases he : (Field.pack f (readBytes w off f.size) v).err with _ | e
      · simp only [he]
        rw [ihfs (off + f.size) _ vs2, hw2]
      · simp only [he, hw2]

/-- C10: `set(buffer, i, v)` modifies only the bytes in the half-open
range `[offsets[i], offsets[i] + fields[i].size)` — every byte outside it
is unchanged, and the buffer's length is preserved. -/
theorem c10_set_frame (fields : List Field) (b : List Nat) (i : Nat)
    (v : Value) (f : Field) (hf : fields[i]? = some f)
    (hb : sizeList fields ≤ b.length)
    (_hok : (FieldSet.set fields b i v).err = none) :
    ((FieldSet.set fields b i v).buf).length = b.length
    ∧ ∀ j, j < sizeList (fields.take i)
        ∨ sizeList (fields.take i) + f.size ≤ j →
      ((FieldSet.set fields b i v).buf)[j]? = b[j]? := by
  have hi : i < fields.length := (List.getElem?_eq_some.mp hf).1
  have hoff := getElem?_fsOffsets fields i hi
  have hbound := offset_add_size_le fields i f hf
  have hwlen : (readBytes b (sizeList (fields.take i)) f.size).length = f.size := by
    rw [length_readBytes]
    omega
  have hpl : ((Field.pack f (readBytes b (sizeList (fields.take i)) f.size) v).buf).length
      = f.size := by
    rw [pack_preserves_length.1 f _ v, hwlen]
  have hset : FieldSet.set fields b i v
      = ⟨writeBytes b (sizeList (fields.take i))
          (Field.pack f (readBytes b (sizeList (fields.take i)) f.size) v).buf,
        (Field.pack f (readBytes b (sizeList (fields.take i)) f.size) v).err⟩ := by
    unfold FieldSet.set
    rw [hf, hoff]
  rw [hset]
  constructor
  · exact length_writeBytes b _ _ (by omega)
  · intro j hj
    rw [getElem?_writeBytes b _ _ (by omega) j]
    rcases hj with hj | hj
    · simp [hj]
    · have h1 : ¬ j < sizeList (fields.take i) := by omega
      have h2 : ¬ j < sizeList (fields.take i)
          + ((Field.pack f (readBytes b (sizeList (fields.take i)) f.size) v).buf).length := by
        rw [hpl]
        omega
      simp [h1, h2]

theorem c10_set_frame_witness :
    (((FieldSet.set [Field.basic u8, Field.basic u8, Field.basic u8]
        [9, 9, 9] 1 (.int 5)).buf).length = 3
      ∧ ((FieldSet.set [Field.basic u8, Field.basic u8, Field.basic u8]
        [9, 9, 9] 1 (.int 5)).buf)[0]? = some 9)
      ∧ ((FieldSet.set [Field.basic u8, Field.basic u8, Field.basic u8]
        [9, 9, 9] 1 (.int 5)).buf)[2]? = some 9 := by
  have h := c10_set_frame [Field.basic u8, Field.basic u8, Field.basic u8]
    [9, 9, 9] 1 (.int 5) (.basic u8) rfl (by decide) (by decide)
  refine ⟨⟨?_, ?_⟩, ?_⟩
  · rw [h.1]
    rfl
  · rw [h.2 0 (by decide)]
    rfl
  · rw [h.2 2 (by decide)]
    rfl

/-! ### Scalar-only bulk pack: closed form -/

theorem size_basic (bf : BasicField) : (Field.basic bf).size = bf.nbytes := rfl

theorem size_bytes (n : Nat) : (Field.bytes n).size = n := rfl

theorem size_group (fs : List Field) : (Field.group fs).size = sizeList fs := rfl

theorem encodeAll_nil (vs : List Int) : encodeAll [] vs = [] := by
  cases vs <;> rfl

theorem encodeAll_cons (bf : BasicField) (bfs : List BasicField) (v : Int)
    (vs : List Int) :
    encodeAll (bf :: bfs) (v :: vs) = bf.encode v ++ encodeAll bfs vs := rfl

theorem length_encodeAll (bfs : List BasicField) (ints : List Int)
    (hlen : bfs.length = ints.length) :
    (encodeAll bfs ints).length = sizeList (bfs.map Field.basic) := by
  induction bfs generalizing ints with
  | nil => simp [encodeAll_nil, sizeList_nil]
  | cons bf bfs ih =>
    match ints with
    | [] => simp at hlen
    | v :: vs =>
      rw [encodeAll_cons]
      simp only [List.length_append, length_encode, List.map_cons,
        sizeList_cons, size_basic]
      rw [ih vs (by simpa using hlen)]

/-- A successful scalar-only `goPack` run writes exactly the concatenated
encodings over the window `[off, off + Σ sizes)` and leaves everything
else in place. -/
theorem goPack_scalar (bfs : List BasicField) (ints : List Int)
    (hr : List.Forall₂ (fun bf v => bf.inRange v = true) bfs ints) :
    ∀ (off : Nat) (w : List Nat),
      off + sizeList (bfs.map Field.basic) ≤ w.length →
      Field.pack.goPack (bfs.map Field.basic) off w (ints.map Value.int)
        = ⟨w.take off ++ encodeAll bfs ints
            ++ w.drop (off + sizeList (bfs.map Field.basic)), none⟩ := by
  induction hr with
  | nil =>
    intro off w _
    rw [List.map_nil, List.map_nil, goPack_nil]
    rw [encodeAll_nil]
    simp only [List.append_nil, sizeList_nil, Nat.add_zero]
    rw [List.take_append_drop]
  | cons h1 h2 ih =>
    rename_i bf v bfs2 ints2
    intro off w hw
    have htot : sizeList ((bf :: bfs2).map Field.basic)
        = bf.nbytes + sizeList (bfs2.map Field.basic) := by
      simp [sizeList_cons, size_basic]
    have hwin : (readBytes w off bf.nbytes).length = bf.nbytes := by
      rw [length_readBytes]
      omega
    have hpack : Field.pack (.basic bf)
        (readBytes w off (Field.size (.basic bf))) (.int v)
        = ⟨bf.encode v, none⟩ := by
      rw [size_basic, pack_basic_int, if_neg (by omega),
        if_pos h1, List.drop_eq_nil_of_le (le_of_eq hwin), List.append_nil]
    rw [List.map_cons, List.map_cons, goPack_cons, hpack]
    simp only [size_basic]
    have hXlen : (w.take off ++ bf.encode v).length = off + bf.nbytes := by
      simp [length_encode]
      omega
    have hwb : writeBytes w off (bf.encode v)
        = (w.take off ++ bf.encode v) ++ w.drop (off + bf.nbytes) := by
      unfold writeBytes
      rw [length_encode, List.append_assoc]
    have hw2 : ((w.take off ++ bf.encode v) ++ w.drop (off + bf.nbytes)).length
        = w.length := by
      rw [← hwb]
      exact length_writeBytes w _ off (by rw [length_encode]; omega)
    rw [hwb]
    rw [ih (off + bf.nbytes) _ (by rw [hw2]; omega)]
    have hA : ((w.take off ++ bf.encode v) ++ w.drop (off + bf.nbytes)).take
        (off + bf.nbytes) = w.take off ++ bf.encode v := by
      rw [← hXlen, List.take_left]
    have hB : ((w.take off ++ bf.encode v) ++ w.drop (off + bf.nbytes)).drop
        (off + bf.nbytes + sizeList (bfs2.map Field.basic))
        = w.drop (off + sizeList ((bf :: bfs2).map Field.basic)) := by
      rw [show off + bf.nbytes + sizeList (bfs2.map Field.basic)
          = (w.take off ++ bf.encode v).length + sizeList (bfs2.map Field.basic) by
          rw [hXlen]]
      rw [List.drop_append, List.drop_drop, htot]
      congr 1
      omega
    rw [hA, hB, encodeAll_cons]
    simp [List.append_assoc]

/-- Reading field `j`'s window out of the concatenated encodings yields
field `j`'s encoding. -/
theorem readBytes_encodeAll (bfs : List BasicField) (ints : List Int)
    (hlen : bfs.length = ints.length) :
    ∀ (j : Nat) (bf : BasicField) (v : Int),
      bfs[j]? = some bf → ints[j]? = some v →
      readBytes (encodeAll bfs ints)
        (sizeList ((bfs.map Field.basic).take j)) bf.nbytes
        = bf.encode v := by
  induction bfs generalizing ints with
  | nil =>
    intro j bf v hbf _
    simp at hbf
  | cons bf0 bfs2 ih =>
    intro j bf v hbf hv
    match ints with
    | [] => simp at hlen
    | v0 :: ints2 =>
      cases j with
      | zero =>
        simp only [List.getElem?_cons_zero, Option.some.injEq] at hbf hv
        subst hbf
        subst hv
        rw [encodeAll_cons]
        simp only [List.take_zero, sizeList_nil]
        unfold readBytes
        rw [List.drop_zero, ← length_encode bf0 v0, List.take_left]
      | succ j =>
        simp only [List.getElem?_cons_succ] at hbf hv
        rw [encodeAll_cons]
        simp only [List.map_cons, List.take_succ_cons, sizeList_cons,
          size_basic]
        unfold readBytes
        rw [show bf0.nbytes + sizeList ((bfs2.map Field.basic).take j)
            = (bf0.encode v0).length + sizeList ((bfs2.map Field.basic).take j) by
            rw [length_encode]]
        rw [List.drop_append]
        have := ih ints2 (by simpa using hlen) j bf v hbf hv
        unfold readBytes at this
        exact this

/-- `mapM` over `Except` succeeds pointwise. -/
theorem mapM_ok_of_forall₂ {α : Type} (g : α → Except Err Value)
    (l : List α) (out : List Value)
    (h : List.Forall₂ (fun a b => g a = .ok b) l out) :
    l.mapM g = .ok out := by
  induction h with
  | nil => rfl
  | cons h1 h2 ih =>
    rw [List.mapM_cons, h1, ih]
    rfl

/-- Decoding field `j` of the packed scalar buffer gives value `j` back. -/
theorem get_encodeAll (bfs : List BasicField) (ints : List Int)
    (hn : ∀ bf ∈ bfs, 0 < bf.nbytes)
    (hr : List.Forall₂ (fun bf v => bf.inRange v = true) bfs ints)
    (j : Nat) (hj : j < bfs.length) :
    FieldSet.get (bfs.map Field.basic) (encodeAll bfs ints) j
      = .ok (.int (ints.getD j 0)) := by
  have hlen : bfs.length = ints.length := hr.length_eq
  have hjv : j < ints.length := by omega
  have hbf : bfs[j]? = some bfs[j] := List.getElem?_eq_getElem hj
  have hv : ints[j]? = some ints[j] := List.getElem?_eq_getElem hjv
  have hfield : (bfs.map Field.basic)[j]? = some (.basic bfs[j]) := by
    rw [List.getElem?_map, hbf]
    rfl
  have hoff := getElem?_fsOffsets (bfs.map Field.basic) j (by simpa using hj)
  have hread := readBytes_encodeAll bfs ints hlen j bfs[j] ints[j] hbf hv
  have hrange : bfs[j].inRange ints[j] = true := by
    rcases List.forall₂_iff_get.mp hr with ⟨_, hget⟩
    simpa using hget j (by omega) (by omega)
  unfold FieldSet.get
  rw [hfield, hoff]
  simp only [Field.unpack, size_basic, hread]
  rw [unpack_encode bfs[j] ints[j] (hn bfs[j] (List.getElem_mem hj)) hrange]
  rw [List.getD_eq_getElem ints 0 hjv]
  rfl

/-- C2: for a scalar-only schema and a tuple of representable values,
bulk-packing into a fresh buffer of the schema's size succeeds and writes
exactly the concatenated encodings; binding that buffer succeeds; and
reading the full slice through the bound view decodes the original tuple
element-wise. -/
theorem c2_roundtrip (bfs : List BasicField) (ints : List Int)
    (hn : ∀ bf ∈ bfs, 0 < bf.nbytes)
    (hr : List.Forall₂ (fun bf v => bf.inRange v = true) bfs ints) :
    FieldSet.pack (bfs.map Field.basic)
        (List.replicate (sizeList (bfs.map Field.basic)) 0)
        (ints.map Value.int)
      = ⟨encodeAll bfs ints, none⟩
    ∧ FieldSet.unpack (bfs.map Field.basic) (encodeAll bfs ints)
      = .ok (.viewVal (bfs.map Field.basic) (encodeAll bfs ints))
    ∧ FieldView.readAll (bfs.map Field.basic) (encodeAll bfs ints)
      = .ok (ints.map Value.int) := by
  have hlen : bfs.length = ints.length := hr.length_eq
  have hel := length_encodeAll bfs ints hlen
  refine ⟨?_, ?_, ?_⟩
  · unfold FieldSet.pack
    rw [pack_group_seq, if_neg (by simp; omega)]
    rw [goPack_scalar bfs ints hr 0
      (List.replicate (sizeList (bfs.map Field.basic)) 0)
      (by simp)]
    simp
  · unfold FieldSet.unpack
    simp only [Field.unpack]
    rw [if_neg (by omega)]
  · unfold FieldView.readAll
    apply mapM_ok_of_forall₂
    rw [List.forall₂_iff_get]
    constructor
    · simp [hlen]
    · intro i h1 h2
      simp only [List.get_eq_getElem, List.getElem_range]
      have hi : i < bfs.length := by simpa using h1
      rw [get_encodeAll bfs ints hn hr i hi]
      congr 1
      simp only [List.getElem_map]
      rw [List.getD_eq_getElem ints 0 (by omega)]

theorem c2_roundtrip_witness :
    FieldSet.pack [Field.basic u16, Field.basic i8]
        (List.replicate (sizeList [Field.basic u16, Field.basic i8]) 0)
        [Value.int 513, Value.int (-2)]
      = ⟨encodeAll [u16, i8] [513, -2], none⟩
    ∧ FieldView.readAll [Field.basic u16, Field.basic i8]
        (encodeAll [u16, i8] [513, -2])
      = .ok [Value.int 513, Value.int (-2)] := by
  have h := c2_roundtrip [u16, i8] [513, -2]
    (by intro bf hbf; fin_cases hbf <;> decide)
    (by refine List.Forall₂.cons (by decide) (List.Forall₂.cons (by decide) .nil))
  exact ⟨h.1, h.2.2⟩

/-! ### Partial bulk pack (failure mid-loop) -/

theorem readBytes_append_left (P Q : List Nat) (a l : Nat)
    (h : a + l ≤ P.length) :
    readBytes (P ++ Q) a l = readBytes P a l := by
  apply List.ext_getElem?
  intro j
  rw [getElem?_readBytes, getElem?_readBytes]
  rcases Nat.lt_or_ge j l with hj | hj
  · simp only [hj, if_true]
    rw [List.getElem?_append_left (by omega)]
  · simp [Nat.not_lt.mpr hj]

/-- A scalar-only `goPack` run that hits an out-of-range value at field
`k` stops there with the overflow error: fields `0..k-1` hold their new
encodings, every byte from field `k`'s offset on is untouched. -/
theorem goPack_scalar_fail (xs : List BasicField) (us : List Int)
    (bad : BasicField) (u : Int) (ys : List BasicField) (ws : List Int)
    (hr : List.Forall₂ (fun bf v => bf.inRange v = true) xs us)
    (hbad : bad.inRange u = false) :
    ∀ (off : Nat) (w : List Nat),
      off + sizeList (((xs ++ bad :: ys)).map Field.basic) ≤ w.length →
      Field.pack.goPack ((xs ++ bad :: ys).map Field.basic) off w
          ((us ++ u :: ws).map Value.int)
        = ⟨w.take off ++ encodeAll xs us
            ++ w.drop (off + sizeList (xs.map Field.basic)),
           some .overflowErr⟩ := by
  induction hr with
  | nil =>
    intro off w hw
    simp only [List.nil_append] at hw ⊢
    rw [List.map_cons] at hw
    rw [List.map_cons, List.map_cons, goPack_cons]
    have hwin : (readBytes w off bad.nbytes).length = bad.nbytes := by
      rw [length_readBytes]
      rw [sizeList_cons, size_basic] at hw
      omega
    have hpack : Field.pack (.basic bad)
        (readBytes w off (Field.size (.basic bad))) (.int u)
        = ⟨readBytes w off bad.nbytes, some .overflowErr⟩ := by
      rw [size_basic, pack_basic_int, if_neg (by omega), if_neg (by simp [hbad])]
    rw [hpack]
    simp only [writeBytes_readBytes_self]
    rw [encodeAll_nil]
    simp only [List.append_nil, List.map_nil, sizeList_nil, Nat.add_zero]
    rw [List.take_append_drop]
  | cons h1 h2 ih =>
    rename_i bf v xs2 us2
    intro off w hw
    rw [List.cons_append, List.map_cons] at hw ⊢
    rw [List.cons_append, List.map_cons, goPack_cons]
    have htot : sizeList (((xs2 ++ bad :: ys)).map Field.basic)
        = sizeList ((bf :: (xs2 ++ bad :: ys)).map Field.basic) - bf.nbytes := by
      simp [sizeList_cons, size_basic]
    have hw' : off + bf.nbytes ≤ w.length := by
      rw [sizeList_cons, size_basic] at hw
      omega
    have hwin : (readBytes w off bf.nbytes).length = bf.nbytes := by
      rw [length_readBytes]
      omega
    have hpack : Field.pack (.basic bf)
        (readBytes w off (Field.size (.basic bf))) (.int v)
        = ⟨bf.encode v, none⟩ := by
      rw [size_basic, pack_basic_int, if_neg (by omega),
        if_pos h1, List.drop_eq_nil_of_le (le_of_eq hwin), List.append_nil]
    rw [hpack]
    simp only [size_basic]
    have hXlen : (w.take off ++ bf.encode v).length = off + bf.nbytes := by
      simp [length_encode]
      omega
    have hwb : writeBytes w off (bf.encode v)
        = (w.take off ++ bf.encode v) ++ w.drop (off + bf.nbytes) := by
      unfold writeBytes
      rw [length_encode, List.append_assoc]
    have hw2 : ((w.take off ++ bf.encode v) ++ w.drop (off + bf.nbytes)).length
        = w.length := by
      rw [← hwb]
      exact length_writeBytes w _ off (by rw [length_encode]; omega)
    rw [hwb]
    rw [ih (off + bf.nbytes) _ (by
      rw [hw2]
      rw [sizeList_cons, size_basic] at hw
      omega)]
    have hA : ((w.take off ++ bf.encode v) ++ w.drop (off + bf.nbytes)).take
        (off + bf.nbytes) = w.take off ++ bf.encode v := by
      rw [← hXlen, List.take_left]
    have hB : ((w.take off ++ bf.encode v) ++ w.drop (off + bf.nbytes)).drop
        (off + bf.nbytes + sizeList (xs2.map Field.basic))
        = w.drop (off + sizeList ((bf :: xs2).map Field.basic)) := by
      rw [show off + bf.nbytes + sizeList (xs2.map Field.basic)
          = (w.take off ++ bf.encode v).length + sizeList (xs2.map Field.basic) by
          rw [hXlen]]
      rw [List.drop_append, List.drop_drop]
      congr 1
      simp [sizeList_cons, size_basic]
      omega
    rw [hA, hB, encodeAll_cons]
    simp [List.append_assoc]

/-- C5: bulk `pack` raises the arity schema error before writing any byte
when the value count differs from the field count; when arity matches,
fields are written in index order and a value overflow at field `k` aborts
there: the final buffer holds the new encodings of fields `0..k-1`
followed by the untouched remainder (no rollback), and fields `0..k-1`
decode to the new values. -/
theorem c5_pack_arity_and_partial (fields : List Field) (b : List Nat)
    (vs : List Value) (xs : List BasicField) (us : List Int)
    (bad : BasicField) (u : Int) (ys : List BasicField) (ws : List Int)
    (harity : vs.length ≠ fields.length)
    (hn : ∀ bf ∈ xs, 0 < bf.nbytes)
    (hr : List.Forall₂ (fun bf v => bf.inRange v = true) xs us)
    (hbad : bad.inRange u = false)
    (hb : sizeList ((xs ++ bad :: ys).map Field.basic) ≤ b.length) :
    FieldSet.pack fields b vs = ⟨b, some .packArity⟩
    ∧ FieldSet.pack ((xs ++ bad :: ys).map Field.basic) b
        ((us ++ u :: ws).map Value.int)
      = (if (us ++ u :: ws).length = (xs ++ bad :: ys).length then
          ⟨encodeAll xs us ++ b.drop (sizeList (xs.map Field.basic)),
           some .overflowErr⟩
        else ⟨b, some .packArity⟩)
    ∧ ((us ++ u :: ws).length = (xs ++ bad :: ys).length →
        ∀ j, j < xs.length →
          FieldSet.get ((xs ++ bad :: ys).map Field.basic)
            (encodeAll xs us ++ b.drop (sizeList (xs.map Field.basic))) j
          = .ok (.int (us.getD j 0))) := by
  have hlen : xs.length = us.length := hr.length_eq
  refine ⟨?_, ?_, ?_⟩
  · unfold FieldSet.pack
    rw [pack_group_seq, if_pos harity]
  · unfold FieldSet.pack
    rw [pack_group_seq]
    by_cases he : (us ++ u :: ws).length = (xs ++ bad :: ys).length
    · rw [if_neg (show ¬ ((us ++ u :: ws).map Value.int).length
          ≠ ((xs ++ bad :: ys).map Field.basic).length by
            simp only [List.length_map]; omega)]
      rw [goPack_scalar_fail xs us bad u ys ws hr hbad 0 b (by omega)]
      rw [if_pos he]
      simp
    · rw [if_pos (show ((us ++ u :: ws).map Value.int).length
          ≠ ((xs ++ bad :: ys).map Field.basic).length by
            simp only [List.length_map]; omega)]
      rw [if_neg he]
  · intro _ j hj
    have hju : j < us.length := by omega
    have hel := length_encodeAll xs us hlen
    have hbf : xs[j]? = some xs[j] := List.getElem?_eq_getElem hj
    have hu : us[j]? = some us[j] := List.getElem?_eq_getElem hju
    have hfield : ((xs ++ bad :: ys).map Field.basic)[j]?
        = some (.basic xs[j]) := by
      rw [List.map_append, List.getElem?_append_left (by simpa using hj),
        List.getElem?_map, hbf]
      rfl
    have hofflt : j < ((xs ++ bad :: ys).map Field.basic).length := by
      simp
      omega
    have hoff := getElem?_fsOffsets ((xs ++ bad :: ys).map Field.basic) j hofflt
    have htake : ((xs ++ bad :: ys).map Field.basic).take j
        = (xs.map Field.basic).take j := by
      rw [List.map_append, List.take_append_of_le_length (by simpa using hj.le)]
    have hrange : xs[j].inRange us[j] = true := by
      rcases List.forall₂_iff_get.mp hr with ⟨_, hget⟩
      simpa using hget j (by omega) (by omega)
    have hwinb : sizeList ((xs.map Field.basic).take j) + xs[j].nbytes
        ≤ (encodeAll xs us).length := by
      rw [hel]
      have := offset_add_size_le (xs.map Field.basic) j (.basic xs[j])
        (by rw [List.getElem?_map, hbf]; rfl)
      simpa [size_basic] using this
    have hread := readBytes_encodeAll xs us hlen j xs[j] us[j] hbf hu
    unfold FieldSet.get
    rw [hfield, hoff, htake]
    simp only [Field.unpack, size_basic]
    rw [readBytes_append_left _ _ _ _ hwinb, hread]
    rw [unpack_encode xs[j] us[j] (hn xs[j] (List.getElem_mem hj)) hrange]
    rw [List.getD_eq_getElem us 0 hju]
    rfl

theorem c5_pack_arity_and_partial_witness :
    FieldSet.pack [Field.basic u8, Field.basic u8] [9, 9] [.int 1]
      = ⟨[9, 9], some .packArity⟩
    ∧ FieldSet.pack [Field.basic u8, Field.basic u8, Field.basic u8]
        [9, 9, 9] [.int 1, .int 300, .int 2]
      = ⟨[1, 9, 9], some .overflowErr⟩ := by
  have ha := c5_pack_arity_and_partial [Field.basic u8, Field.basic u8]
    [9, 9] [.int 1] [] [] u8 300 [] []
    (by decide) (by intro bf hbf; simp at hbf)
    .nil (by decide) (by decide)
  have hb := c5_pack_arity_and_partial [Field.basic u8]
    [9, 9, 9] [] [u8] [1] u8 300 [u8] [2]
    (by decide) (by intro bf hbf; fin_cases hbf; decide)
    (List.Forall₂.cons (by decide) .nil) (by decide) (by decide)
  refine ⟨ha.1, ?_⟩
  have h2 := hb.2.1
  rw [if_pos (by decide)] at h2
  convert h2 using 2

/-! ### The offset-threaded loop agrees with the source's index loop

`Field.pack`'s `goPack` threads the running offset; the source's
`FieldSet.pack` iterates `self.set(buf, i, v)` by index, each `set`
re-deriving the offset from the offset table.  The two coincide. -/

theorem packIdx_eq_goPack (fields : List Field) :
    ∀ (vs : List Value) (k : Nat) (b : List Nat),
      k + vs.length = fields.length →
      packIdx fields b vs k
        = Field.pack.goPack (fields.drop k) (sizeList (fields.take k)) b vs := by
  intro vs
  induction vs with
  | nil =>
    intro k b hk
    simp only [List.length_nil] at hk
    have hdrop : fields.drop k = [] :=
      List.drop_eq_nil_of_le (by omega)
    rw [hdrop, goPack_nil]
    rfl
  | cons v vs2 ih =>
    intro k b hk
    simp only [List.length_cons] at hk
    have hklt : k < fields.length := by omega
    have hdrop := List.drop_eq_getElem_cons hklt
    have hf : fields[k]? = some fields[k] := List.getElem?_eq_getElem hklt
    have hoff := getElem?_fsOffsets fields k hklt
    rw [hdrop, goPack_cons]
    have hset : FieldSet.set fields b k v
        = ⟨writeBytes b (sizeList (fields.take k))
            (Field.pack fields[k]
              (readBytes b (sizeList (fields.take k)) fields[k].size) v).buf,
          (Field.pack fields[k]
            (readBytes b (sizeList (fields.take k)) fields[k].size) v).err⟩ := by
      unfold FieldSet.set
      rw [hf, hoff]
    show packIdx fields b (v :: vs2) k = _
    unfold packIdx
    rw [hset]
    simp only
    rcases he : (Field.pack fields[k]
        (readBytes b (sizeList (fields.take k)) fields[k].size) v).err with _ | e
    · rw [ih (k + 1) _ (by omega)]
      rw [sizeList_take_succ fields k fields[k] hf]
    · rfl

/-- `FieldSet.pack` written exactly as in the source — arity check, then
the index-based `set` loop — equals the embedding's `pack`. -/
theorem fieldSetPack_eq_packIdx (fields : List Field) (b : List Nat)
    (vs : List Value) :
    FieldSet.pack fields b vs
      = if vs.length ≠ fields.length then ⟨b, some .packArity⟩
        else packIdx fields b vs 0 := by
  unfold FieldSet.pack
  rw [pack_group_seq]
  split_ifs with h
  · rfl
  · rw [packIdx_eq_goPack fields vs 0 b (by omega)]
    rfl

end Rupy
